import Mathlib

/-!
Shallow embedding of the flux-cluster-generator reconciliation engine
(`internal/controller/helpers.go`, `rsip_reconciler.go`, the orphan sweep),
with theorems checking the specification's claims against it.

Strings are modelled as Lean `String`s (lists of characters).  Where the Go
code calls the standard library (`strings.ToLower`, `strings.TrimSpace`,
`unicode.ToUpper`), the model uses Lean's corresponding character functions;
these agree on ASCII, which is the alphabet every property below is about.
-/

set_option autoImplicit false

namespace FluxClusterGen

/-! ## Character classes and low-level string helpers -/

/-- The characters admitted by the DNS-1123 sanitizer: `[a-z0-9-]`
(the condition tested in `sanitizeDNS1123`'s loop). -/
def isDNSChar (c : Char) : Bool :=
  ('a' ≤ c && c ≤ 'z') || ('0' ≤ c && c ≤ '9') || c == '-'

/-- Lowercase letters and digits, `[a-z0-9]`. -/
def isLowerDigit (c : Char) : Bool :=
  ('a' ≤ c && c ≤ 'z') || ('0' ≤ c && c ≤ '9')

/-- `strings.Trim(s, "-")`: drop every leading and trailing `'-'`. -/
def trimDash (l : List Char) : List Char :=
  ((l.dropWhile (fun c => c == '-')).reverse.dropWhile (fun c => c == '-')).reverse

/-- `strings.TrimSpace`: drop leading and trailing whitespace. -/
def trimSpace (s : String) : String :=
  String.mk (((s.data.dropWhile Char.isWhitespace).reverse.dropWhile Char.isWhitespace).reverse)

/-- `strings.HasPrefix(s, pre)`. -/
def strHasPre (pre s : String) : Bool := pre.data.isPrefixOf s.data

/-- `s[n:]` on an ASCII string: drop the first `n` characters. -/
def strDrop (s : String) (n : Nat) : String := String.mk (s.data.drop n)

/-! ## `helpers.go` pure functions -/

/-- `projectFromNamespace` (helpers.go): best-effort derive the project from
the namespace, supporting the `"p-<project>"` convention. -/
def projectFromNamespace (ns : String) : String :=
  if strHasPre "p-" ns && ns.length > 2 then strDrop ns 2 else ""

/-- The mapping loop of `sanitizeDNS1123`: lowercase, keep `[a-z0-9-]`,
map every other character to `'-'`. -/
def dnsMapped (s : String) : List Char :=
  s.data.map (fun c =>
    let lc := Char.toLower c
    if isDNSChar lc then lc else '-')

/-- `sanitizeDNS1123` before truncation: map, trim `'-'` at both ends, and
substitute `"id"` when the result is empty. -/
def sanitizePre (s : String) : List Char :=
  let t := trimDash (dnsMapped s)
  if t.isEmpty then ['i', 'd'] else t

/-- `sanitizeDNS1123` (helpers.go): sanitize to a DNS-1123 label.  The empty
input short-circuits to `"id"`; otherwise the trimmed form is truncated to
63 characters.  (Note: trimming happens before truncation.) -/
def sanitizeDNS1123 (s : String) : String :=
  if s == "" then "id" else String.mk ((sanitizePre s).take 63)

/-- `hasAnyPrefix` (helpers.go): does any configured copy-prefix, after
whitespace trimming, non-emptily prefix the key? -/
def hasAnyPrefix (prefixes : List String) (key : String) : Bool :=
  prefixes.any (fun p0 =>
    let p := trimSpace p0
    p != "" && strHasPre p key)

/-- The separator characters `toCamel` splits on: `- _ . / :`. -/
def isSep (c : Char) : Bool :=
  c == '-' || c == '_' || c == '.' || c == '/' || c == ':'

/-- Accumulator loop for `fields`: `acc` holds the current (reversed) run
of non-separator characters. -/
def fieldsAux (l : List Char) (acc : List Char) : List (List Char) :=
  match l with
  | [] => if acc.isEmpty then [] else [acc.reverse]
  | c :: t =>
    if isSep c then
      (if acc.isEmpty then fieldsAux t [] else acc.reverse :: fieldsAux t [])
    else fieldsAux t (c :: acc)

/-- `strings.FieldsFunc` specialised to `isSep`: maximal runs of
non-separator characters, in order, empties dropped. -/
def fields (l : List Char) : List (List Char) := fieldsAux l []

/-- Title-case one segment: uppercase the first character, lowercase the
rest (the per-part loop body of `toCamel`). -/
def titleSeg (p : List Char) : List Char :=
  match p with
  | [] => []
  | c :: t => Char.toUpper c :: t.map Char.toLower

/-- Alphanumeric characters `[a-zA-Z0-9]` (the final stripping filter of
`toCamel`). -/
def isAlnumChar (c : Char) : Bool :=
  ('a' ≤ c && c ≤ 'z') || ('A' ≤ c && c ≤ 'Z') || ('0' ≤ c && c ≤ '9')

/-- `toCamel` (helpers.go): split on separators, lowercase the first
segment, title-case the rest, concatenate, strip remaining non-alphanumerics,
and fall back to `"key"` when the stripped result is empty.  An empty input,
or an input with no non-separator character, is returned unchanged. -/
def toCamel (s : String) : String :=
  if s == "" then s
  else
    match fields s.data with
    | [] => s
    | p0 :: rest =>
      let camel := p0.map Char.toLower ++ rest.foldl (fun acc p => acc ++ titleSeg p) []
      let cleaned := camel.filter isAlnumChar
      if cleaned.isEmpty then "key" else String.mk cleaned

/-! ## Association-list maps

Go `map[string]V` values are modelled as association lists with unique keys;
every map the engine builds starts from a literal with distinct keys and
grows only through `insertA`, which replaces an existing binding in place. -/

def lookupA {β : Type} (m : List (String × β)) (k : String) : Option β :=
  match m with
  | [] => none
  | kv :: t => if kv.1 == k then some kv.2 else lookupA t k

def insertA {β : Type} (m : List (String × β)) (k : String) (v : β) : List (String × β) :=
  match m with
  | [] => [(k, v)]
  | kv :: t => if kv.1 == k then (k, v) :: t else kv :: insertA t k v

def keysNodupA {β : Type} : List (String × β) → Bool
  | [] => true
  | kv :: t => (lookupA t kv.1).isNone && keysNodupA t

abbrev Labels := List (String × String)

/-- `m[k]` on a Go string map: the zero value `""` when the key is absent. -/
def getL (m : Labels) (k : String) : String := (lookupA m k).getD ""

/-- `maps.Equal` on `map[string]string`: same size and every binding of `a`
present in `b` with the same value. -/
def strMapsEqual (a b : Labels) : Bool :=
  a.length == b.length && a.all (fun kv => lookupA b kv.1 == some kv.2)

/-! ## Dynamic values and `mapsEqual`

`map[string]any` payloads: every leaf this engine stores is a string, so a
value is a string scalar or a nested map.  `mapsEqual` (helpers.go) compares
map entries recursively and scalars by their `fmt.Sprintf("%v")` rendering;
`render` models that rendering (a scalar renders as itself; a map renders in
Go's `map[k:v ...]` shape — entries here in list order, a difference from
Go's sorted-key printing that no comparison below depends on, since the
scalar-versus-map branch never fires on well-formed equal maps). -/

inductive Value where
  | str : String → Value
  | map : List (String × Value) → Value

mutual

def render : Value → String
  | Value.str a => a
  | Value.map m => "map[" ++ renderEntries m ++ "]"

def renderEntries : List (String × Value) → String
  | [] => ""
  | [kv] => kv.1 ++ ":" ++ render kv.2
  | kv :: t => kv.1 ++ ":" ++ render kv.2 ++ " " ++ renderEntries t

end

mutual

/-- One entry comparison inside `mapsEqual`: a nested map requires a nested
map and recurses; a scalar compares string renderings. -/
def valEq : Value → Value → Bool
  | Value.str sa, vb => sa == render vb
  | Value.map _, Value.str _ => false
  | Value.map am, Value.map bm => am.length == bm.length && subEq am bm

/-- The loop of `mapsEqual`: every binding of `a` must be present in `b`
and compare equal entry-wise. -/
def subEq : List (String × Value) → List (String × Value) → Bool
  | [], _ => true
  | kv :: t, b =>
    (match lookupA b kv.1 with
     | none => false
     | some vb => valEq kv.2 vb) && subEq t b

end

/-- `mapsEqual` (helpers.go): deep compare two `map[string]any`. -/
def mapsEqual (a b : List (String × Value)) : Bool :=
  a.length == b.length && subEq a b

mutual

/-- Well-formedness of a dynamic value: unique keys at every map level. -/
def wfValue : Value → Bool
  | Value.str _ => true
  | Value.map m => keysNodupA m && wfEntries m

def wfEntries : List (String × Value) → Bool
  | [] => true
  | kv :: t => wfValue kv.2 && wfEntries t

end

/-! ## Data model: configuration, source records, target records -/

structure Options where
  rsipNamespace : String
  secretKey : String
  rsipNamePrefix : String
  clusterNameKey : String
  projectLabelKey : String
  copyLabelKeys : List String
  copyLabelPrefixes : List String

/-- A source record: a Secret's identity, labels, and the names of its data
keys (contents are never inspected). -/
structure Secret where
  ns : String
  name : String
  labels : Labels
  dataKeys : List String

/-- A target record: a ResourceSetInputProvider. -/
structure RSIP where
  ns : String
  name : String
  labels : Labels
  spec : List (String × Value)

/-! ## Name and identity derivation (`Reconcile`, names/ids section) -/

/-- Helper for `matchesLabelRegex`: interior characters from `[a-z0-9-]`,
final character from `[a-z0-9]`. -/
def middleOk : List Char → Bool
  | [] => true
  | [c] => isLowerDigit c
  | c :: t => isDNSChar c && middleOk t

/-- The DNS-1123 label language `[a-z0-9]([a-z0-9-]*[a-z0-9])?`. -/
def matchesLabelRegex : List Char → Bool
  | [] => false
  | [c] => isLowerDigit c
  | c :: t => isLowerDigit c && middleOk t

/-- `validation.IsDNS1123Label` passes: at most 63 characters and matching
the DNS-1123 label regular expression. -/
def isDNS1123Label (s : String) : Bool :=
  s.length ≤ 63 && matchesLabelRegex s.data

/-- The cluster identifier: the configured cluster-name label, falling back
to the Secret's own name, sanitized only when not already a valid label. -/
def clusterNameOf (opts : Options) (sec : Secret) : String :=
  let cn0 := getL sec.labels opts.clusterNameKey
  let cn1 := if cn0 == "" then sec.name else cn0
  if isDNS1123Label cn1 then cn1 else sanitizeDNS1123 cn1

/-- The project identifier: the trimmed configured project label, falling
back to the namespace convention, always sanitized. -/
def projectOf (opts : Options) (sec : Secret) : String :=
  let p0 := trimSpace (getL sec.labels opts.projectLabelKey)
  let p1 := if p0 == "" then projectFromNamespace sec.ns else p0
  sanitizeDNS1123 p1

/-- The derived target-record name: prefix, then `project + "-"` when the
project is non-empty, then the cluster identifier. -/
def rsipNameOf (opts : Options) (sec : Secret) : String :=
  let project := projectOf opts sec
  let base := opts.rsipNamePrefix ++ (if project != "" then project ++ "-" else "")
  base ++ clusterNameOf opts sec

/-! ## Desired-state builder (`Reconcile`, desired RSIP section) -/

/-- The literal label map the reconciler starts from: managed marker,
back-references, data-key copy, and the derived identifiers. -/
def baseLabels (opts : Options) (sec : Secret) : Labels :=
  [("mirror.fluxcd.io/managed", "true"),
   ("mirror.fluxcd.io/secretNS", sec.ns),
   ("mirror.fluxcd.io/secretName", sec.name),
   ("mirror.fluxcd.io/secretKey", opts.secretKey),
   ("mirror.fluxcd.io/clusterName", clusterNameOf opts sec),
   ("mirror.fluxcd.io/project", projectOf opts sec)]

/-- The desired label set: base labels overlaid with exact-key copies, then
with prefix-matched copies of the source labels. -/
def desiredLabels (opts : Options) (sec : Secret) : Labels :=
  let afterExact := opts.copyLabelKeys.foldl
    (fun m k =>
      match lookupA sec.labels k with
      | some v => insertA m k v
      | none => m)
    (baseLabels opts sec)
  sec.labels.foldl
    (fun m kv =>
      if hasAnyPrefix opts.copyLabelPrefixes kv.1 then insertA m kv.1 kv.2 else m)
    afterExact

/-- The reserved default-value field names. -/
def reservedKeys : List String :=
  ["name", "project", "kubeSecretName", "kubeSecretKey", "kubeSecretNS"]

/-- The literal default-values map the reconciler starts from. -/
def baseDV (opts : Options) (sec : Secret) : List (String × Value) :=
  [("name", Value.str (clusterNameOf opts sec)),
   ("project", Value.str (projectOf opts sec)),
   ("kubeSecretName", Value.str sec.name),
   ("kubeSecretKey", Value.str opts.secretKey),
   ("kubeSecretNS", Value.str sec.ns)]

/-- The default-values map: reserved identity fields, then camel-cased
copies of the selected labels, reserved keys never overridden. -/
def defaultValuesOf (opts : Options) (sec : Secret) : List (String × Value) :=
  let dv1 := opts.copyLabelKeys.foldl
    (fun m k =>
      match lookupA sec.labels k with
      | some v =>
        if reservedKeys.contains (toCamel k) then m else insertA m (toCamel k) (Value.str v)
      | none => m)
    (baseDV opts sec)
  sec.labels.foldl
    (fun m kv =>
      if hasAnyPrefix opts.copyLabelPrefixes kv.1 then
        (if reservedKeys.contains (toCamel kv.1) then m
         else insertA m (toCamel kv.1) (Value.str kv.2))
      else m)
    dv1

/-- The desired spec payload: a type tag and the default-values map. -/
def desiredSpec (opts : Options) (sec : Secret) : List (String × Value) :=
  [("type", Value.str "Static"),
   ("defaultValues", Value.map (defaultValuesOf opts sec))]

/-- The complete desired target record for an eligible source record. -/
def mkDesired (opts : Options) (sec : Secret) : RSIP :=
  { ns := opts.rsipNamespace
    name := rsipNameOf opts sec
    labels := desiredLabels opts sec
    spec := desiredSpec opts sec }

/-! ## Write operations, cleanup, sweep, reconcile -/

inductive Op where
  | create (r : RSIP)
  | update (r : RSIP)
  | delete (ns name : String)

/-- Does a target record carry back-reference labels naming this source? -/
def backrefMatches (r : RSIP) (secNS secName : String) : Bool :=
  lookupA r.labels "mirror.fluxcd.io/secretNS" == some secNS &&
  lookupA r.labels "mirror.fluxcd.io/secretName" == some secName

/-- The label-selector List of `ensureRSIPAbsence`: records in the target
namespace whose back-reference labels match the source identity. -/
def rsipMatchesFor (opts : Options) (secNS secName : String) (store : List RSIP) : List RSIP :=
  store.filter (fun r => r.ns == opts.rsipNamespace && backrefMatches r secNS secName)

/-- The deletions the cleanup path issues (one per matched record). -/
def cleanupOps (opts : Options) (secNS secName : String) (store : List RSIP) : List Op :=
  (rsipMatchesFor opts secNS secName store).map (fun r => Op.delete r.ns r.name)

/-- Outcome of a single storage delete. -/
inductive DelRes where
  | ok
  | notFound
  | err

/-- The counting loop of `ensureRSIPAbsence`: `(deleted, errs)` where
not-found is ignored (counted as deleted) and other errors are collected. -/
def cleanupCounts (items : List RSIP) (delRes : RSIP → DelRes) : Nat × Nat :=
  items.foldl
    (fun acc r =>
      match delRes r with
      | DelRes.err => (acc.1, acc.2 + 1)
      | _ => (acc.1 + 1, acc.2))
    (0, 0)

/-- `ensureRSIPAbsence`: select target records by back-reference label
match, attempt to delete each, and return the attempted matches, the
deleted count, and the aggregate error (the failure count) if any delete
failed with an error other than not-found. -/
def ensureRSIPAbsence (opts : Options) (secNS secName : String) (store : List RSIP)
    (delRes : RSIP → DelRes) : List RSIP × Nat × Option Nat :=
  let ms := rsipMatchesFor opts secNS secName store
  if ms.isEmpty then (ms, 0, none)
  else
    let c := cleanupCounts ms delRes
    (ms, c.1, if c.2 > 0 then some c.2 else none)

/-- Outcome of the direct source-existence read during the sweep. -/
inductive GetRes where
  | found
  | notFound
  | err

/-- `sweepOrphanRSIPs`: of all target records, those actually deleted — the
ones whose back-reference labels are present and non-empty and whose
referenced source read conclusively returns not-found.  Records with
malformed back-references, an existing source, or an inconclusive read
error are kept. -/
def sweepOrphanRSIPs (store : List RSIP) (srcGet : String → String → GetRes) : List RSIP :=
  store.filter (fun r =>
    match lookupA r.labels "mirror.fluxcd.io/secretNS",
          lookupA r.labels "mirror.fluxcd.io/secretName" with
    | some secNS, some secName =>
      if secNS == "" || secName == "" then false
      else
        match srcGet secNS secName with
        | GetRes.notFound => true
        | _ => false
    | _, _ => false)

/-- `SecretMirrorReconciler.Reconcile` as a write plan: the storage writes
one reconciliation performs, given the fetched source (`none` = not found),
the namespace allow-set, the label selector, and the target store. -/
def reconcile (opts : Options) (selMatch : Labels → Bool) (allowed : List String)
    (reqNS reqName : String) (sec? : Option Secret) (store : List RSIP) : List Op :=
  match sec? with
  | none => cleanupOps opts reqNS reqName store
  | some sec =>
    if !(allowed.contains sec.ns) || !(selMatch sec.labels) then
      cleanupOps opts reqNS reqName store
    else if !(sec.dataKeys.contains opts.secretKey) then []
    else
      let desired := mkDesired opts sec
      match store.find? (fun r => r.ns == opts.rsipNamespace && r.name == desired.name) with
      | none => [Op.create desired]
      | some e =>
        let labelsChanged := !(strMapsEqual e.labels desired.labels)
        let specChanged := !(mapsEqual e.spec desired.spec)
        if labelsChanged || specChanged then
          [Op.update { e with
            labels := if labelsChanged then desired.labels else e.labels
            spec := if specChanged then desired.spec else e.spec }]
        else []

/-- Effect of a write plan on the target store. -/
def applyOps (store : List RSIP) (ops : List Op) : List RSIP :=
  ops.foldl
    (fun st op =>
      match op with
      | Op.create r => st ++ [r]
      | Op.update r => st.map (fun x => if x.ns == r.ns && x.name == r.name then r else x)
      | Op.delete dns dname => st.filter (fun x => !(x.ns == dns && x.name == dname)))
    store

/-! ## Helper lemmas: characters, trimming, the DNS regex -/

theorem mem_of_head?_eq {α : Type} {l : List α} {c : α} (h : l.head? = some c) : c ∈ l := by
  cases l with
  | nil => simp at h
  | cons a t => simp at h; simp [h]

theorem mem_of_getLast?_eq {α : Type} {l : List α} {c : α} (h : l.getLast? = some c) : c ∈ l := by
  induction l with
  | nil => simp at h
  | cons a t ih =>
    cases t with
    | nil => simp at h; simp [h]
    | cons b u =>
      rw [List.getLast?_cons_cons] at h
      exact List.mem_cons_of_mem a (ih h)

theorem head?_dropWhile_false {α : Type} (p : α → Bool) (l : List α) {c : α}
    (h : (l.dropWhile p).head? = some c) : p c = false := by
  induction l with
  | nil => simp [List.dropWhile] at h
  | cons a t ih =>
    simp only [List.dropWhile] at h
    cases hpa : p a with
    | true => rw [hpa] at h; exact ih h
    | false => rw [hpa] at h; simp at h; rw [← h]; exact hpa

theorem isLowerDigit_of_isDNSChar {c : Char} (h1 : isDNSChar c = true)
    (h2 : (c == '-') = false) : isLowerDigit c = true := by
  unfold isDNSChar at h1
  rw [h2, Bool.or_false] at h1
  unfold isLowerDigit
  exact h1

theorem trimDash_subset (l : List Char) : ∀ c ∈ trimDash l, c ∈ l := by
  intro c hc
  simp only [trimDash, List.mem_reverse] at hc
  have h1 : c ∈ (l.dropWhile (fun x => x == '-')).reverse :=
    (List.dropWhile_sublist _).mem hc
  rw [List.mem_reverse] at h1
  exact (List.dropWhile_sublist _).mem h1

theorem trimDash_head?_false (l : List Char) {c : Char}
    (h : (trimDash l).head? = some c) : (c == '-') = false := by
  have hsplit :
      List.takeWhile (fun x => x == '-') (l.dropWhile (fun x => x == '-')).reverse ++
        List.dropWhile (fun x => x == '-') (l.dropWhile (fun x => x == '-')).reverse =
        (l.dropWhile (fun x => x == '-')).reverse :=
    List.takeWhile_append_dropWhile _ _
  have hu_eq : trimDash l ++
      (List.takeWhile (fun x => x == '-') (l.dropWhile (fun x => x == '-')).reverse).reverse =
      l.dropWhile (fun x => x == '-') := by
    unfold trimDash
    rw [← List.reverse_append, hsplit, List.reverse_reverse]
  have hhead : (l.dropWhile (fun x => x == '-')).head? = some c := by
    rw [← hu_eq, List.head?_append, h]; rfl
  exact head?_dropWhile_false (fun x => x == '-') l hhead

theorem trimDash_getLast?_false (l : List Char) {c : Char}
    (h : (trimDash l).getLast? = some c) : (c == '-') = false := by
  have htd : (trimDash l).getLast? =
      (List.dropWhile (fun x => x == '-') (l.dropWhile (fun x => x == '-')).reverse).head? := by
    simp [trimDash, List.getLast?_reverse]
  rw [htd] at h
  exact head?_dropWhile_false (fun x => x == '-')
    ((l.dropWhile (fun x => x == '-')).reverse) h

theorem middleOk_of (l : List Char)
    (hall : ∀ c ∈ l, isDNSChar c = true)
    (hlast : ∀ c, l.getLast? = some c → isLowerDigit c = true) :
    middleOk l = true := by
  induction l with
  | nil => rfl
  | cons a t ih =>
    cases t with
    | nil =>
      simp only [middleOk]
      exact hlast a (by simp)
    | cons b u =>
      simp only [middleOk, Bool.and_eq_true]
      constructor
      · exact hall a (by simp)
      · exact ih (fun c hc => hall c (List.mem_cons_of_mem a hc))
          (fun c hc => hlast c (by rwa [List.getLast?_cons_cons]))

theorem matchesLabelRegex_of (l : List Char) (hne : l ≠ [])
    (hall : ∀ c ∈ l, isDNSChar c = true)
    (hhead : ∀ c, l.head? = some c → isLowerDigit c = true)
    (hlast : ∀ c, l.getLast? = some c → isLowerDigit c = true) :
    matchesLabelRegex l = true := by
  cases l with
  | nil => exact absurd rfl hne
  | cons a t =>
    cases t with
    | nil =>
      simp only [matchesLabelRegex]
      exact hhead a (by simp)
    | cons b u =>
      simp only [matchesLabelRegex, Bool.and_eq_true]
      constructor
      · exact hhead a (by simp)
      · exact middleOk_of (b :: u)
          (fun c hc => hall c (List.mem_cons_of_mem a hc))
          (fun c hc => hlast c (by rwa [List.getLast?_cons_cons]))

/-! ## Properties of `sanitizePre` -/

theorem dnsMapped_all (s : String) : ∀ c ∈ dnsMapped s, isDNSChar c = true := by
  intro c hc
  simp only [dnsMapped, List.mem_map] at hc
  obtain ⟨a, _, ha⟩ := hc
  by_cases hd : isDNSChar (Char.toLower a) = true
  · simp only [hd, if_pos] at ha
    rw [← ha]; exact hd
  · simp only [if_neg hd] at ha
    rw [← ha]; decide

theorem sanitizePre_ne_nil (s : String) : sanitizePre s ≠ [] := by
  simp only [sanitizePre]
  cases ht : trimDash (dnsMapped s) with
  | nil => simp [ht]
  | cons a t => simp [ht]

theorem sanitizePre_all (s : String) : ∀ c ∈ sanitizePre s, isDNSChar c = true := by
  intro c hc
  simp only [sanitizePre] at hc
  cases ht : trimDash (dnsMapped s) with
  | nil =>
    rw [ht] at hc; simp at hc
    rcases hc with hc | hc <;> (subst hc; decide)
  | cons a t =>
    rw [ht] at hc; simp at hc
    have hmem : c ∈ dnsMapped s := by
      apply trimDash_subset (dnsMapped s) c
      rw [ht]; exact List.mem_cons.mpr hc
    exact dnsMapped_all s c hmem

theorem sanitizePre_head (s : String) :
    ∀ c, (sanitizePre s).head? = some c → isLowerDigit c = true := by
  intro c hc
  simp only [sanitizePre] at hc
  cases ht : trimDash (dnsMapped s) with
  | nil =>
    rw [ht] at hc; simp at hc; subst hc; decide
  | cons a t =>
    rw [ht] at hc; simp at hc
    have hmem : c ∈ dnsMapped s := by
      apply trimDash_subset (dnsMapped s) c
      rw [ht]; simp [← hc]
    have hd := trimDash_head?_false (dnsMapped s) (c := c) (by rw [ht]; simp [hc])
    exact isLowerDigit_of_isDNSChar (dnsMapped_all s c hmem) hd

theorem sanitizePre_last (s : String) :
    ∀ c, (sanitizePre s).getLast? = some c → isLowerDigit c = true := by
  intro c hc
  simp only [sanitizePre] at hc
  cases ht : trimDash (dnsMapped s) with
  | nil =>
    rw [ht] at hc; simp [List.getLast?] at hc; subst hc; decide
  | cons a t =>
    rw [ht] at hc; simp at hc
    have hlast : (trimDash (dnsMapped s)).getLast? = some c := by rw [ht]; exact hc
    have hmem : c ∈ dnsMapped s :=
      trimDash_subset (dnsMapped s) c (mem_of_getLast?_eq hlast)
    exact isLowerDigit_of_isDNSChar (dnsMapped_all s c hmem)
      (trimDash_getLast?_false (dnsMapped s) hlast)

theorem sanitizeDNS1123_ne_empty (s : String) : sanitizeDNS1123 s ≠ "" := by
  simp only [sanitizeDNS1123]
  by_cases h : (s == "") = true
  · simp [h]
  · rw [if_neg (by simp [h])]
    intro hcontra
    have hdata : (sanitizePre s).take 63 = [] := by
      have h2 := congrArg String.data hcontra
      simpa using h2
    rcases List.take_eq_nil_iff.mp hdata with h63 | hnil
    · exact absurd h63 (by decide)
    · exact sanitizePre_ne_nil s hnil

/-! ## Sample configuration and source record (the spec's §8 scenario) -/

def sampleOpts : Options where
  rsipNamespace := "tgt"
  secretKey := "config"
  rsipNamePrefix := "inputs-"
  clusterNameKey := "cluster"
  projectLabelKey := "proj"
  copyLabelKeys := ["env"]
  copyLabelPrefixes := ["inputs-"]

def sampleSec : Secret where
  ns := "apps"
  name := "c1"
  labels := [("type", "cluster"), ("env", "dev")]
  dataKeys := ["config"]

/-! ## C4 — sanitization postcondition -/

/-- C4 counterexample: the 64-character input of 62 `'a'`s followed by
`"-x"` sanitizes (trim before truncate) to 62 `'a'`s followed by `'-'`,
which ends in `'-'`, so the output does not match
`[a-z0-9]([a-z0-9-]*[a-z0-9])?` as the claim asserts for every input. -/
theorem sanitizeDNS1123_regex_cex :
    matchesLabelRegex
      (sanitizeDNS1123 (String.mk (List.replicate 62 'a' ++ ['-', 'x']))).data = false := by
  decide

/-- C4 (amended): for every input, the sanitized form is non-empty, has at
most 63 characters, consists only of `[a-z0-9-]`, never starts with `'-'`,
and the empty input yields the placeholder `"id"`; it matches the full
regular expression `[a-z0-9]([a-z0-9-]*[a-z0-9])?` whenever the trimmed
form does not exceed 63 characters (no truncation) — truncation alone can
leave a trailing `'-'`. -/
theorem sanitizeDNS1123_spec (s : String) :
    sanitizeDNS1123 s ≠ "" ∧
    (sanitizeDNS1123 s).length ≤ 63 ∧
    (∀ c ∈ (sanitizeDNS1123 s).data, isDNSChar c = true) ∧
    (∀ c, (sanitizeDNS1123 s).data.head? = some c → isLowerDigit c = true) ∧
    ((sanitizePre s).length ≤ 63 → matchesLabelRegex (sanitizeDNS1123 s).data = true) ∧
    sanitizeDNS1123 "" = "id" := by
  cases hs : (s == "") with
  | true =>
    have hs' : s = "" := by simpa using hs
    subst hs'
    exact ⟨by decide, by decide, by decide, by decide, by decide, by decide⟩
  | false =>
    have hif : sanitizeDNS1123 s = String.mk ((sanitizePre s).take 63) := by
      simp [sanitizeDNS1123, hs]
    have hdata : (sanitizeDNS1123 s).data = (sanitizePre s).take 63 := by
      rw [hif]
    refine ⟨sanitizeDNS1123_ne_empty s, ?_, ?_, ?_, ?_, by decide⟩
    · have : (sanitizeDNS1123 s).length = ((sanitizePre s).take 63).length := by
        rw [hif]; rfl
      rw [this, List.length_take]
      exact Nat.min_le_left _ _
    · intro c hc
      rw [hdata] at hc
      exact sanitizePre_all s c (List.take_subset 63 (sanitizePre s) hc)
    · intro c hc
      rw [hdata, List.head?_take] at hc
      rw [if_neg (by omega)] at hc
      exact sanitizePre_head s c hc
    · intro hlen
      rw [hdata, List.take_of_length_le hlen]
      exact matchesLabelRegex_of (sanitizePre s) (sanitizePre_ne_nil s)
        (sanitizePre_all s) (sanitizePre_head s) (sanitizePre_last s)

/-! ## C7 — project identifier derivation -/

/-- C7 counterexample: a source record with no project label in a namespace
without the recognized `"p-"` prefix.  The claim allows the final project
identifier to be the empty string with the target name omitting the project
segment (giving `"inputs-c1"` here); the code instead sanitizes the empty
candidate into the placeholder `"id"` and produces `"inputs-id-c1"`. -/
theorem projectOf_cex :
    projectOf sampleOpts sampleSec = "id" ∧
    rsipNameOf sampleOpts sampleSec = "inputs-id-c1" := by
  exact ⟨rfl, rfl⟩

/-- C7 (amended): the project identifier equals the sanitization of the
trimmed configured project label, falling back to the namespace-derived
project when that is empty; because sanitization maps the empty string to
the placeholder, the final project identifier is never empty, and the
target name therefore always contains the `project ++ "-"` segment. -/
theorem projectOf_spec (opts : Options) (sec : Secret) :
    projectOf opts sec =
      sanitizeDNS1123
        (if trimSpace (getL sec.labels opts.projectLabelKey) == "" then
          projectFromNamespace sec.ns
         else trimSpace (getL sec.labels opts.projectLabelKey)) ∧
    projectOf opts sec ≠ "" ∧
    rsipNameOf opts sec =
      opts.rsipNamePrefix ++ (projectOf opts sec ++ "-") ++ clusterNameOf opts sec := by
  refine ⟨rfl, sanitizeDNS1123_ne_empty _, ?_⟩
  have hne : projectOf opts sec ≠ "" := sanitizeDNS1123_ne_empty _
  have hbne : (projectOf opts sec != "") = true := by
    simpa [bne_iff_ne] using hne
  simp only [rsipNameOf, hbne, if_true]

/-! ## C8 — key normalization -/

theorem fieldsAux_ne_nil (l : List Char) : ∀ acc : List Char,
    (∃ c ∈ l, isSep c = false) ∨ acc ≠ [] → fieldsAux l acc ≠ [] := by
  induction l with
  | nil =>
    intro acc h
    rcases h with h | h
    · obtain ⟨c, hc, _⟩ := h; simp at hc
    · cases acc with
      | nil => exact absurd rfl h
      | cons a racc => simp [fieldsAux]
  | cons c t ih =>
    intro acc h
    simp only [fieldsAux]
    cases hc : isSep c with
    | true =>
      simp only [if_pos]
      cases acc with
      | nil =>
        simp only [List.isEmpty_nil, if_true]
        apply ih []
        left
        rcases h with h | h
        · obtain ⟨c', hc', hcf⟩ := h
          rcases List.mem_cons.mp hc' with rfl | hct
          · rw [hc] at hcf; simp at hcf
          · exact ⟨c', hct, hcf⟩
        · exact absurd rfl h
      | cons a racc => simp
    | false =>
      simp only [Bool.false_eq_true, if_false]
      apply ih (c :: acc)
      right
      simp

theorem fields_ne_nil (l : List Char) (h : ∃ c ∈ l, isSep c = false) : fields l ≠ [] :=
  fieldsAux_ne_nil l [] (Or.inl h)

/-- C8 counterexample: `toCamel` maps `"-"` to `"-"` (an output containing
a non-alphanumeric character, not replaced by the placeholder) and `""` to
`""` (an empty output), contradicting the claim that for every label key
the output is alphanumeric-only and never empty. -/
theorem toCamel_cex :
    toCamel "-" = "-" ∧ (toCamel "-").data.all isAlnumChar = false ∧ toCamel "" = "" := by
  exact ⟨rfl, by decide, rfl⟩

/-- C8 (amended): for every label key containing at least one non-separator
character, the normalized key consists only of alphanumeric characters and
is never empty (an empty stripped result is replaced by the placeholder
`"key"`); an empty input, or an input consisting solely of separator
characters, is instead returned unchanged. -/
theorem toCamel_spec (s : String) (h : ∃ c ∈ s.data, isSep c = false) :
    (toCamel s).data.all isAlnumChar = true ∧ toCamel s ≠ "" := by
  have hsne : (s == "") = false := by
    obtain ⟨c, hc, _⟩ := h
    cases hse : (s == "") with
    | false => rfl
    | true =>
      have : s = "" := by simpa using hse
      subst this; simp at hc
  have hfields : fields s.data ≠ [] := fields_ne_nil s.data h
  rw [toCamel]
  rw [hsne]
  simp only [Bool.false_eq_true, if_false]
  cases hf : fields s.data with
  | nil => exact absurd hf hfields
  | cons p0 rest =>
    simp only []
    cases hfl : (p0.map Char.toLower ++
        rest.foldl (fun acc p => acc ++ titleSeg p) []).filter isAlnumChar with
    | nil =>
      exact ⟨by decide, by decide⟩
    | cons a t =>
      simp only [List.isEmpty_cons, Bool.false_eq_true, if_false]
      constructor
      · rw [List.all_eq_true]
        intro c hc
        have hmem : c ∈ (p0.map Char.toLower ++
            rest.foldl (fun acc p => acc ++ titleSeg p) []).filter isAlnumChar := by
          rw [hfl]; exact hc
        exact List.of_mem_filter hmem
      · intro hcontra
        have h2 := congrArg String.data hcontra
        simp at h2

theorem toCamel_spec_witness :
    (∃ c ∈ ("flux-app/podinfo" : String).data, isSep c = false) ∧
    ((toCamel "flux-app/podinfo").data.all isAlnumChar = true ∧
      toCamel "flux-app/podinfo" ≠ "") :=
  ⟨by decide, toCamel_spec "flux-app/podinfo" (by decide)⟩

/-! ## C10 — empty prefixes never match -/

/-- C10: the prefix matcher accepts exactly when some configured entry is
non-empty after whitespace trimming and its trimmed form prefixes the key;
hence an empty or whitespace-only entry matches no key. -/
theorem hasAnyPrefix_iff (ps : List String) (key : String) :
    hasAnyPrefix ps key = true ↔
      ∃ p ∈ ps, trimSpace p ≠ "" ∧ strHasPre (trimSpace p) key = true := by
  simp [hasAnyPrefix, List.any_eq_true, Bool.and_eq_true, bne_iff_ne]

/-! ## Helper lemmas: association-list maps -/

theorem lookupA_insertA_ne {β : Type} (m : List (String × β)) (k k' : String) (v : β)
    (h : ¬ k = k') : lookupA (insertA m k v) k' = lookupA m k' := by
  induction m with
  | nil => simp [insertA, lookupA, h]
  | cons kv t ih =>
    by_cases hkv : kv.1 = k
    · simp only [insertA, hkv, beq_self_eq_true, if_true]
      simp [lookupA, h, hkv]
    · simp only [insertA, lookupA]
      rw [if_neg (by simpa using hkv)]
      by_cases hk' : kv.1 = k'
      · simp [lookupA, hk']
      · simp only [lookupA]
        rw [if_neg (by simpa using hk'), if_neg (by simpa using hk')]
        exact ih

theorem lookupA_foldl_preserve {α β : Type} (L : List α)
    (f : List (String × β) → α → List (String × β)) (k : String)
    (h : ∀ m x, x ∈ L → lookupA (f m x) k = lookupA m k) :
    ∀ m0, lookupA (L.foldl f m0) k = lookupA m0 k := by
  induction L with
  | nil => intro m0; rfl
  | cons a t ih =>
    intro m0
    rw [List.foldl_cons,
      ih (fun m x hx => h m x (List.mem_cons_of_mem a hx)) (f m0 a)]
    exact h m0 a (List.mem_cons_self a t)

/-! ## C6 — reserved default-value fields are never overridden -/

theorem lookupA_defaultValues_reserved (opts : Options) (sec : Secret) (k : String)
    (hk : reservedKeys.contains k = true) :
    lookupA (defaultValuesOf opts sec) k = lookupA (baseDV opts sec) k := by
  have hstep1 : ∀ (m : List (String × Value)) (x : String), x ∈ opts.copyLabelKeys →
      lookupA ((fun m k0 =>
        match lookupA sec.labels k0 with
        | some v =>
          if reservedKeys.contains (toCamel k0) then m
          else insertA m (toCamel k0) (Value.str v)
        | none => m) m x) k = lookupA m k := by
    intro m x _
    simp only []
    cases hv : lookupA sec.labels x with
    | none => rfl
    | some v =>
      cases hres : reservedKeys.contains (toCamel x) with
      | true => simp
      | false =>
        simp only [Bool.false_eq_true, if_false]
        apply lookupA_insertA_ne
        intro heq
        rw [heq, hk] at hres
        simp at hres
  have hstep2 : ∀ (m : List (String × Value)) (kv : String × String), kv ∈ sec.labels →
      lookupA ((fun m kv =>
        if hasAnyPrefix opts.copyLabelPrefixes kv.1 then
          (if reservedKeys.contains (toCamel kv.1) then m
           else insertA m (toCamel kv.1) (Value.str kv.2))
        else m) m kv) k = lookupA m k := by
    intro m kv _
    simp only []
    cases hpre : hasAnyPrefix opts.copyLabelPrefixes kv.1 with
    | false => simp
    | true =>
      cases hres : reservedKeys.contains (toCamel kv.1) with
      | true => simp
      | false =>
        simp only [Bool.false_eq_true, if_false, if_true]
        apply lookupA_insertA_ne
        intro heq
        rw [heq, hk] at hres
        simp at hres
  unfold defaultValuesOf
  rw [lookupA_foldl_preserve _ _ _ hstep2, lookupA_foldl_preserve _ _ _ hstep1]

/-- C6: for every source record and configuration, each of the five
reserved default-value fields keeps its reserved value in the final
default-values mapping: no copied label (exact-key or prefix-selected)
whose normalized key collides with a reserved field name ever changes it —
the colliding copy is dropped. -/
theorem reserved_defaults_never_overridden (opts : Options) (sec : Secret) :
    lookupA (defaultValuesOf opts sec) "name" = some (Value.str (clusterNameOf opts sec)) ∧
    lookupA (defaultValuesOf opts sec) "project" = some (Value.str (projectOf opts sec)) ∧
    lookupA (defaultValuesOf opts sec) "kubeSecretName" = some (Value.str sec.name) ∧
    lookupA (defaultValuesOf opts sec) "kubeSecretKey" = some (Value.str opts.secretKey) ∧
    lookupA (defaultValuesOf opts sec) "kubeSecretNS" = some (Value.str sec.ns) := by
  refine ⟨?_, ?_, ?_, ?_, ?_⟩
  all_goals rw [lookupA_defaultValues_reserved opts sec _ (by decide)]
  all_goals rfl

/-! ## C9 — back-reference label immutability -/

theorem lookupA_desiredLabels_uncopied (opts : Options) (sec : Secret) (k : String)
    (hk1 : ¬ k ∈ opts.copyLabelKeys)
    (hk2 : hasAnyPrefix opts.copyLabelPrefixes k = false) :
    lookupA (desiredLabels opts sec) k = lookupA (baseLabels opts sec) k := by
  have hstep1 : ∀ (m : Labels) (x : String), x ∈ opts.copyLabelKeys →
      lookupA ((fun m k0 =>
        match lookupA sec.labels k0 with
        | some v => insertA m k0 v
        | none => m) m x) k = lookupA m k := by
    intro m x hx
    simp only []
    cases hv : lookupA sec.labels x with
    | none => rfl
    | some v =>
      apply lookupA_insertA_ne
      intro heq
      rw [heq] at hx
      exact hk1 hx
  have hstep2 : ∀ (m : Labels) (kv : String × String), kv ∈ sec.labels →
      lookupA ((fun m kv =>
        if hasAnyPrefix opts.copyLabelPrefixes kv.1 then insertA m kv.1 kv.2 else m) m kv) k =
        lookupA m k := by
    intro m kv _
    simp only []
    cases hpre : hasAnyPrefix opts.copyLabelPrefixes kv.1 with
    | false => simp
    | true =>
      simp only [if_true]
      apply lookupA_insertA_ne
      intro heq
      rw [heq, hk2] at hpre
      simp at hpre
  unfold desiredLabels
  rw [lookupA_foldl_preserve _ _ _ hstep2, lookupA_foldl_preserve _ _ _ hstep1]

/-- C9 (amended): provided the configuration does not copy the
back-reference label keys themselves (they are not configured as exact
copy keys and no configured copy-prefix matches them), every
reconciliation of the same source identity derives back-reference labels
equal to that identity — so across a creation and any sequence of updates
from secrets with that identity, the back-reference labels never change,
while other labels and default-values may. -/
theorem backref_labels_immutable (opts : Options) (s1 s2 : Secret)
    (hns : s1.ns = s2.ns) (hname : s1.name = s2.name)
    (h1 : ¬ "mirror.fluxcd.io/secretNS" ∈ opts.copyLabelKeys)
    (h2 : ¬ "mirror.fluxcd.io/secretName" ∈ opts.copyLabelKeys)
    (h3 : hasAnyPrefix opts.copyLabelPrefixes "mirror.fluxcd.io/secretNS" = false)
    (h4 : hasAnyPrefix opts.copyLabelPrefixes "mirror.fluxcd.io/secretName" = false) :
    lookupA (desiredLabels opts s1) "mirror.fluxcd.io/secretNS" = some s1.ns ∧
    lookupA (desiredLabels opts s1) "mirror.fluxcd.io/secretName" = some s1.name ∧
    lookupA (desiredLabels opts s2) "mirror.fluxcd.io/secretNS" =
      lookupA (desiredLabels opts s1) "mirror.fluxcd.io/secretNS" ∧
    lookupA (desiredLabels opts s2) "mirror.fluxcd.io/secretName" =
      lookupA (desiredLabels opts s1) "mirror.fluxcd.io/secretName" := by
  have e1 := lookupA_desiredLabels_uncopied opts s1 "mirror.fluxcd.io/secretNS" h1 h3
  have e2 := lookupA_desiredLabels_uncopied opts s1 "mirror.fluxcd.io/secretName" h2 h4
  have e3 := lookupA_desiredLabels_uncopied opts s2 "mirror.fluxcd.io/secretNS" h1 h3
  have e4 := lookupA_desiredLabels_uncopied opts s2 "mirror.fluxcd.io/secretName" h2 h4
  have b1 : lookupA (baseLabels opts s1) "mirror.fluxcd.io/secretNS" = some s1.ns := rfl
  have b2 : lookupA (baseLabels opts s1) "mirror.fluxcd.io/secretName" = some s1.name := rfl
  have b3 : lookupA (baseLabels opts s2) "mirror.fluxcd.io/secretNS" = some s2.ns := rfl
  have b4 : lookupA (baseLabels opts s2) "mirror.fluxcd.io/secretName" = some s2.name := rfl
  refine ⟨e1.trans b1, e2.trans b2, ?_, ?_⟩
  · rw [e1.trans b1, e3.trans b3, hns]
  · rw [e2.trans b2, e4.trans b4, hname]

/-- A configuration whose copy-prefix list matches the back-reference
label keys themselves (prefix `"mirror"`). -/
def oC9 : Options where
  rsipNamespace := "tgt"
  secretKey := "config"
  rsipNamePrefix := "inputs-"
  clusterNameKey := "cluster"
  projectLabelKey := "proj"
  copyLabelKeys := []
  copyLabelPrefixes := ["mirror"]

/-- The source record as first reconciled (no labels). -/
def sC9a : Secret where
  ns := "apps"
  name := "c1"
  labels := []
  dataKeys := ["config"]

/-- The same source identity, later carrying a label that collides with
the back-reference label key. -/
def sC9b : Secret where
  ns := "apps"
  name := "c1"
  labels := [("mirror.fluxcd.io/secretNS", "evil")]
  dataKeys := ["config"]

/-- C9 counterexample: reconciling the same source identity
(`apps`/`c1`) twice under a configuration whose copy-prefix matches the
back-reference keys: the target record is created with back-reference
namespace `"apps"`, and the second reconciliation updates that same target
record (same derived name) with back-reference namespace `"evil"` — the
back-reference labels are not immutable across updates for the same
source identity. -/
theorem backref_mutated_cex :
    sC9a.ns = sC9b.ns ∧ sC9a.name = sC9b.name ∧
    rsipNameOf oC9 sC9a = rsipNameOf oC9 sC9b ∧
    lookupA (mkDesired oC9 sC9a).labels "mirror.fluxcd.io/secretNS" = some "apps" ∧
    reconcile oC9 (fun _ => true) ["apps"] "apps" "c1" (some sC9b) [mkDesired oC9 sC9a] =
      [Op.update
        { ns := "tgt"
          name := "inputs-id-c1"
          labels := desiredLabels oC9 sC9b
          spec := desiredSpec oC9 sC9b }] ∧
    lookupA (desiredLabels oC9 sC9b) "mirror.fluxcd.io/secretNS" = some "evil" :=
  ⟨rfl, rfl, rfl, rfl, rfl, rfl⟩

theorem backref_labels_immutable_witness :
    ("apps" : String) = "apps" ∧
    (lookupA (desiredLabels sampleOpts sampleSec) "mirror.fluxcd.io/secretNS" = some "apps" ∧
     lookupA (desiredLabels sampleOpts sampleSec) "mirror.fluxcd.io/secretName" = some "c1" ∧
     lookupA (desiredLabels sampleOpts sampleSec) "mirror.fluxcd.io/secretNS" =
       lookupA (desiredLabels sampleOpts sampleSec) "mirror.fluxcd.io/secretNS" ∧
     lookupA (desiredLabels sampleOpts sampleSec) "mirror.fluxcd.io/secretName" =
       lookupA (desiredLabels sampleOpts sampleSec) "mirror.fluxcd.io/secretName") :=
  ⟨rfl, backref_labels_immutable sampleOpts sampleSec sampleSec rfl rfl
    (by decide) (by decide) (by decide) (by decide)⟩

/-! ## Helper lemmas: key uniqueness and reflexivity of the comparators -/

theorem lookupA_of_mem_nodup {β : Type} (m : List (String × β)) (h : keysNodupA m = true)
    {kv : String × β} (hm : kv ∈ m) : lookupA m kv.1 = some kv.2 := by
  induction m with
  | nil => simp at hm
  | cons a t ih =>
    simp only [keysNodupA, Bool.and_eq_true] at h
    rcases List.mem_cons.mp hm with rfl | hmt
    · simp [lookupA]
    · by_cases hak : a.1 = kv.1
      · exfalso
        have hsome := ih h.2 hmt
        have hnone := h.1
        rw [hak, hsome] at hnone
        simp at hnone
      · simp only [lookupA]
        rw [if_neg (by simpa using hak)]
        exact ih h.2 hmt

theorem keysNodupA_insertA {β : Type} (m : List (String × β)) (k : String) (v : β)
    (h : keysNodupA m = true) : keysNodupA (insertA m k v) = true := by
  induction m with
  | nil => simp [insertA, keysNodupA, lookupA]
  | cons a t ih =>
    simp only [keysNodupA, Bool.and_eq_true] at h
    by_cases hak : a.1 = k
    · simp only [insertA]
      rw [if_pos (by simpa using hak)]
      simp only [keysNodupA, Bool.and_eq_true]
      refine ⟨?_, h.2⟩
      rw [← hak]
      exact h.1
    · simp only [insertA]
      rw [if_neg (by simpa using hak)]
      simp only [keysNodupA, Bool.and_eq_true]
      refine ⟨?_, ih h.2⟩
      rw [lookupA_insertA_ne t k a.1 v (fun he => hak he.symm)]
      exact h.1

theorem foldl_preserve_pred {α β : Type} (P : β → Prop) (L : List α) (f : β → α → β) :
    ∀ m0, P m0 → (∀ m x, x ∈ L → P m → P (f m x)) → P (L.foldl f m0) := by
  induction L with
  | nil => intro m0 h _; exact h
  | cons a t ih =>
    intro m0 h hstep
    rw [List.foldl_cons]
    exact ih (f m0 a) (hstep m0 a (List.mem_cons_self a t) h)
      (fun m x hx hp => hstep m x (List.mem_cons_of_mem a hx) hp)

theorem keysNodupA_desiredLabels (opts : Options) (sec : Secret) :
    keysNodupA (desiredLabels opts sec) = true := by
  unfold desiredLabels
  apply foldl_preserve_pred (fun m => keysNodupA m = true)
  · apply foldl_preserve_pred (fun m => keysNodupA m = true)
    · rfl
    · intro m x _ hp
      cases hv : lookupA sec.labels x with
      | none => exact hp
      | some v => exact keysNodupA_insertA m x v hp
  · intro m kv _ hp
    cases hpre : hasAnyPrefix opts.copyLabelPrefixes kv.1 with
    | false => simpa using hp
    | true =>
      simp only [if_true]
      exact keysNodupA_insertA m kv.1 kv.2 hp

theorem wfEntries_insertA (m : List (String × Value)) (k : String) (v : Value)
    (hm : wfEntries m = true) (hv : wfValue v = true) : wfEntries (insertA m k v) = true := by
  induction m with
  | nil => simp [insertA, wfEntries, hv]
  | cons a t ih =>
    simp only [wfEntries, Bool.and_eq_true] at hm
    by_cases hak : a.1 = k
    · simp only [insertA]
      rw [if_pos (by simpa using hak)]
      simp only [wfEntries, Bool.and_eq_true]
      exact ⟨hv, hm.2⟩
    · simp only [insertA]
      rw [if_neg (by simpa using hak)]
      simp only [wfEntries, Bool.and_eq_true]
      exact ⟨hm.1, ih hm.2⟩

theorem wf_defaultValues (opts : Options) (sec : Secret) :
    keysNodupA (defaultValuesOf opts sec) = true ∧
    wfEntries (defaultValuesOf opts sec) = true := by
  unfold defaultValuesOf
  apply foldl_preserve_pred
    (fun m => keysNodupA m = true ∧ wfEntries m = true)
  · apply foldl_preserve_pred
      (fun m => keysNodupA m = true ∧ wfEntries m = true)
    · exact ⟨rfl, rfl⟩
    · intro m x _ hp
      cases hv : lookupA sec.labels x with
      | none => exact hp
      | some v =>
        cases hres : reservedKeys.contains (toCamel x) with
        | true => simpa using hp
        | false =>
          simp only [Bool.false_eq_true, if_false]
          exact ⟨keysNodupA_insertA m _ _ hp.1, wfEntries_insertA m _ _ hp.2 rfl⟩
  · intro m kv _ hp
    cases hpre : hasAnyPrefix opts.copyLabelPrefixes kv.1 with
    | false => simpa using hp
    | true =>
      simp only [if_true]
      cases hres : reservedKeys.contains (toCamel kv.1) with
      | true => simpa using hp
      | false =>
        simp only [Bool.false_eq_true, if_false]
        exact ⟨keysNodupA_insertA m _ _ hp.1, wfEntries_insertA m _ _ hp.2 rfl⟩

theorem wfValue_of_mem (m : List (String × Value)) (h : wfEntries m = true)
    {kv : String × Value} (hm : kv ∈ m) : wfValue kv.2 = true := by
  induction m with
  | nil => simp at hm
  | cons a t ih =>
    simp only [wfEntries, Bool.and_eq_true] at h
    rcases List.mem_cons.mp hm with rfl | hmt
    · exact h.1
    · exact ih h.2 hmt

theorem subEq_of_forall (l m : List (String × Value))
    (h : ∀ kv ∈ l, lookupA m kv.1 = some kv.2 ∧ valEq kv.2 kv.2 = true) :
    subEq l m = true := by
  induction l with
  | nil => rfl
  | cons kv t ih =>
    simp only [subEq]
    obtain ⟨h1, h2⟩ := h kv (List.mem_cons_self kv t)
    rw [h1]
    simp only [Bool.and_eq_true]
    exact ⟨h2, ih (fun kv' hm => h kv' (List.mem_cons_of_mem kv hm))⟩

theorem valEq_refl : ∀ (v : Value), wfValue v = true → valEq v v = true
  | Value.str a, _ => by simp [valEq, render]
  | Value.map m, h => by
    simp only [wfValue, Bool.and_eq_true] at h
    have hsub : subEq m m = true := by
      apply subEq_of_forall
      intro kv hm
      exact ⟨lookupA_of_mem_nodup m h.1 hm, valEq_refl kv.2 (wfValue_of_mem m h.2 hm)⟩
    simp [valEq, hsub]
termination_by v _ => sizeOf v
decreasing_by
  have h1 := List.sizeOf_lt_of_mem hm
  have h2 : sizeOf kv.2 < sizeOf kv := by
    cases kv with
    | mk a b => simp
  have h3 : sizeOf (Value.map m) = 1 + sizeOf m := by simp
  omega

theorem mapsEqual_refl (m : List (String × Value)) (hnd : keysNodupA m = true)
    (hwf : wfEntries m = true) : mapsEqual m m = true := by
  simp only [mapsEqual, Bool.and_eq_true]
  refine ⟨by simp, subEq_of_forall m m ?_⟩
  intro kv hm
  exact ⟨lookupA_of_mem_nodup m hnd hm, valEq_refl kv.2 (wfValue_of_mem m hwf hm)⟩

theorem strMapsEqual_refl (m : Labels) (h : keysNodupA m = true) :
    strMapsEqual m m = true := by
  simp only [strMapsEqual, Bool.and_eq_true]
  refine ⟨by simp, ?_⟩
  rw [List.all_eq_true]
  intro kv hm
  simp [lookupA_of_mem_nodup m h hm]

theorem mapsEqual_desiredSpec_refl (opts : Options) (sec : Secret) :
    mapsEqual (desiredSpec opts sec) (desiredSpec opts sec) = true := by
  obtain ⟨hnd, hwf⟩ := wf_defaultValues opts sec
  apply mapsEqual_refl
  · rfl
  · simp [desiredSpec, wfEntries, wfValue, hnd, hwf]

/-! ## C1 — idempotence of diff-and-apply -/

/-- C1: for every eligible source record whose stored target record already
equals the freshly computed desired state (extensionally equal label set —
here structurally, which implies `maps.Equal` — and structurally equal
spec), the reconciliation performs zero writes: no create, no update (and
no delete, since the eligible path never deletes). -/
theorem reconcile_idempotent (opts : Options) (selMatch : Labels → Bool)
    (allowed : List String) (sec : Secret) (store : List RSIP) (e : RSIP)
    (hns : allowed.contains sec.ns = true)
    (hsel : selMatch sec.labels = true)
    (hkey : sec.dataKeys.contains opts.secretKey = true)
    (hfind : store.find? (fun r => r.ns == opts.rsipNamespace &&
      r.name == (mkDesired opts sec).name) = some e)
    (hlab : e.labels = desiredLabels opts sec)
    (hspec : e.spec = desiredSpec opts sec) :
    reconcile opts selMatch allowed sec.ns sec.name (some sec) store = [] := by
  have h1 : strMapsEqual e.labels (mkDesired opts sec).labels = true := by
    rw [hlab]
    exact strMapsEqual_refl _ (keysNodupA_desiredLabels opts sec)
  have h2 : mapsEqual e.spec (mkDesired opts sec).spec = true := by
    rw [hspec]
    exact mapsEqual_desiredSpec_refl opts sec
  have hns' : sec.ns ∈ allowed := by simpa using hns
  have hkey' : opts.secretKey ∈ sec.dataKeys := by simpa using hkey
  simp [reconcile, hns', hsel, hkey', hfind, h1, h2]

theorem reconcile_idempotent_witness :
    (["apps"].contains sampleSec.ns = true) ∧
    ((fun (_ : Labels) => true) sampleSec.labels = true) ∧
    (sampleSec.dataKeys.contains sampleOpts.secretKey = true) ∧
    ([mkDesired sampleOpts sampleSec].find? (fun r => r.ns == sampleOpts.rsipNamespace &&
      r.name == (mkDesired sampleOpts sampleSec).name) = some (mkDesired sampleOpts sampleSec)) ∧
    reconcile sampleOpts (fun _ => true) ["apps"] sampleSec.ns sampleSec.name (some sampleSec)
      [mkDesired sampleOpts sampleSec] = [] :=
  ⟨rfl, rfl, rfl, rfl,
    reconcile_idempotent sampleOpts (fun _ => true) ["apps"] sampleSec
      [mkDesired sampleOpts sampleSec] (mkDesired sampleOpts sampleSec)
      rfl rfl rfl rfl rfl rfl⟩

/-! ## C5 — skip on missing data key is a pure no-op -/

/-- C5: for every eligible source record (allowed namespace, matching
selector) that lacks the designated data key, the reconciliation performs
no write at all — no create, no update, no delete — so any existing target
record (in particular one back-referencing this source) is left in place,
and the reconciliation returns success. -/
theorem reconcile_skip_noop (opts : Options) (selMatch : Labels → Bool)
    (allowed : List String) (sec : Secret) (store : List RSIP)
    (hns : allowed.contains sec.ns = true)
    (hsel : selMatch sec.labels = true)
    (hkey : sec.dataKeys.contains opts.secretKey = false) :
    reconcile opts selMatch allowed sec.ns sec.name (some sec) store = [] ∧
    applyOps store (reconcile opts selMatch allowed sec.ns sec.name (some sec) store) = store := by
  have h : reconcile opts selMatch allowed sec.ns sec.name (some sec) store = [] := by
    have hns' : sec.ns ∈ allowed := by simpa using hns
    have hkey' : ¬ opts.secretKey ∈ sec.dataKeys := by simpa using hkey
    simp [reconcile, hns', hsel, hkey']
  exact ⟨h, by rw [h]; rfl⟩

/-- A source record with the right labels but no data keys at all (the
designated key is missing). -/
def sC5 : Secret where
  ns := "apps"
  name := "c1"
  labels := [("type", "cluster"), ("env", "dev")]
  dataKeys := []

theorem reconcile_skip_noop_witness :
    (["apps"].contains sC5.ns = true) ∧
    ((fun (_ : Labels) => true) sC5.labels = true) ∧
    (sC5.dataKeys.contains sampleOpts.secretKey = false) ∧
    (reconcile sampleOpts (fun _ => true) ["apps"] sC5.ns sC5.name (some sC5)
        [mkDesired sampleOpts sampleSec] = [] ∧
      applyOps [mkDesired sampleOpts sampleSec]
        (reconcile sampleOpts (fun _ => true) ["apps"] sC5.ns sC5.name (some sC5)
          [mkDesired sampleOpts sampleSec]) = [mkDesired sampleOpts sampleSec]) :=
  ⟨rfl, rfl, rfl,
    reconcile_skip_noop sampleOpts (fun _ => true) ["apps"] sC5
      [mkDesired sampleOpts sampleSec] rfl rfl rfl⟩

/-! ## C2 — sweep convergence -/

/-- C2: a target record is deleted by one orphan sweep exactly when its
back-reference labels are both present and non-empty and the direct read of
the referenced source conclusively returns not-found.  In particular the
records whose sources exist are never deleted, a record whose existence
check returns a non-not-found read error is skipped (never deleted), and
the sweep deletes nothing that was not in the store. -/
theorem sweepOrphanRSIPs_spec (store : List RSIP) (srcGet : String → String → GetRes)
    (r : RSIP) (hr : r ∈ store) :
    (r ∈ sweepOrphanRSIPs store srcGet ↔
      ∃ a b, lookupA r.labels "mirror.fluxcd.io/secretNS" = some a ∧
        lookupA r.labels "mirror.fluxcd.io/secretName" = some b ∧
        a ≠ "" ∧ b ≠ "" ∧ srcGet a b = GetRes.notFound) ∧
    List.Sublist (sweepOrphanRSIPs store srcGet) store := by
  constructor
  · rw [sweepOrphanRSIPs, List.mem_filter]
    constructor
    · rintro ⟨-, hp⟩
      cases hNS : lookupA r.labels "mirror.fluxcd.io/secretNS" with
      | none => rw [hNS] at hp; simp at hp
      | some a =>
        cases hNM : lookupA r.labels "mirror.fluxcd.io/secretName" with
        | none => rw [hNS, hNM] at hp; simp at hp
        | some b =>
          rw [hNS, hNM] at hp
          simp only [] at hp
          by_cases hea : a = ""
          · rw [hea] at hp; simp at hp
          · by_cases heb : b = ""
            · rw [heb] at hp; simp at hp
            · refine ⟨a, b, rfl, rfl, hea, heb, ?_⟩
              rw [if_neg (by simp [hea, heb])] at hp
              cases hg : srcGet a b with
              | notFound => rfl
              | found => rw [hg] at hp; simp at hp
              | err => rw [hg] at hp; simp at hp
    · rintro ⟨a, b, h1, h2, h3, h4, h5⟩
      refine ⟨hr, ?_⟩
      rw [h1, h2]
      simp only []
      rw [if_neg (by simp [h3, h4]), h5]
  · exact List.filter_sublist store

/-- An orphaned target record: well-formed back-references to a source. -/
def rC2 : RSIP where
  ns := "tgt"
  name := "inputs-id-gone"
  labels := [("mirror.fluxcd.io/secretNS", "apps"), ("mirror.fluxcd.io/secretName", "gone")]
  spec := []

theorem sweepOrphanRSIPs_spec_witness :
    rC2 ∈ [rC2] ∧
    ((rC2 ∈ sweepOrphanRSIPs [rC2] (fun _ _ => GetRes.notFound) ↔
        ∃ a b, lookupA rC2.labels "mirror.fluxcd.io/secretNS" = some a ∧
          lookupA rC2.labels "mirror.fluxcd.io/secretName" = some b ∧
          a ≠ "" ∧ b ≠ "" ∧ (fun (_ _ : String) => GetRes.notFound) a b = GetRes.notFound) ∧
      List.Sublist (sweepOrphanRSIPs [rC2] (fun _ _ => GetRes.notFound)) [rC2]) :=
  ⟨List.mem_singleton.mpr rfl,
    sweepOrphanRSIPs_spec [rC2] (fun _ _ => GetRes.notFound) rC2 (List.mem_singleton.mpr rfl)⟩

/-! ## C3 — cleanup by back-reference with error aggregation -/

/-- Is a delete outcome an error other than not-found? -/
def isErrB : DelRes → Bool
  | DelRes.err => true
  | _ => false

theorem cleanupCounts_foldl (items : List RSIP) (delRes : RSIP → DelRes) :
    ∀ a b : Nat,
      items.foldl (fun acc r =>
        match delRes r with
        | DelRes.err => (acc.1, acc.2 + 1)
        | _ => (acc.1 + 1, acc.2)) (a, b) =
      (a + (items.filter (fun r => !(isErrB (delRes r)))).length,
       b + (items.filter (fun r => isErrB (delRes r))).length) := by
  induction items with
  | nil => intro a b; simp
  | cons r t ih =>
    intro a b
    rw [List.foldl_cons]
    cases hd : delRes r with
    | err =>
      have hE : isErrB DelRes.err = true := rfl
      simp only [List.filter_cons, hd, hE, Bool.not_true, Bool.false_eq_true, if_false,
        if_true, List.length_cons]
      rw [ih]
      simp only [Prod.mk.injEq]
      exact ⟨trivial, by omega⟩
    | ok =>
      have hE : isErrB DelRes.ok = false := rfl
      simp only [List.filter_cons, hd, hE, Bool.not_false, Bool.false_eq_true, if_false,
        if_true, List.length_cons]
      rw [ih]
      simp only [Prod.mk.injEq]
      exact ⟨by omega, trivial⟩
    | notFound =>
      have hE : isErrB DelRes.notFound = false := rfl
      simp only [List.filter_cons, hd, hE, Bool.not_false, Bool.false_eq_true, if_false,
        if_true, List.length_cons]
      rw [ih]
      simp only [Prod.mk.injEq]
      exact ⟨by omega, trivial⟩

/-- C3: the cleanup path selects target records purely by back-reference
label match in the target namespace (independent of the record's name),
attempts to delete every selected record, counts not-found deletions as
successes, and returns an aggregate error carrying the failure count
exactly when some deletion failed with an error other than not-found —
returning no error when every deletion succeeded or nothing matched. -/
theorem ensureRSIPAbsence_spec (opts : Options) (secNS secName : String)
    (store : List RSIP) (delRes : RSIP → DelRes) :
    (ensureRSIPAbsence opts secNS secName store delRes).1 =
      store.filter (fun r => r.ns == opts.rsipNamespace && backrefMatches r secNS secName) ∧
    (ensureRSIPAbsence opts secNS secName store delRes).2.1 =
      ((ensureRSIPAbsence opts secNS secName store delRes).1.filter
        (fun r => !(isErrB (delRes r)))).length ∧
    (ensureRSIPAbsence opts secNS secName store delRes).2.2 =
      (if ((ensureRSIPAbsence opts secNS secName store delRes).1.filter
            (fun r => isErrB (delRes r))).length = 0 then none
       else some (((ensureRSIPAbsence opts secNS secName store delRes).1.filter
            (fun r => isErrB (delRes r))).length)) := by
  have hM : rsipMatchesFor opts secNS secName store =
      store.filter (fun r => r.ns == opts.rsipNamespace && backrefMatches r secNS secName) := rfl
  unfold ensureRSIPAbsence
  cases hms : rsipMatchesFor opts secNS secName store with
  | nil =>
    simp only [List.isEmpty_nil, if_true]
    refine ⟨by rw [← hms]; exact hM, by simp, by simp⟩
  | cons m0 mt =>
    simp only [List.isEmpty_cons, Bool.false_eq_true, if_false]
    have hc : cleanupCounts (m0 :: mt) delRes =
        (((m0 :: mt).filter (fun r => !(isErrB (delRes r)))).length,
         ((m0 :: mt).filter (fun r => isErrB (delRes r))).length) := by
      unfold cleanupCounts
      rw [cleanupCounts_foldl (m0 :: mt) delRes 0 0]
      simp
    refine ⟨by rw [← hms]; exact hM, ?_, ?_⟩
    · rw [hc]
    · rw [hc]
      simp only []
      cases hn : ((m0 :: mt).filter (fun r => isErrB (delRes r))).length with
      | zero => simp
      | succ n => simp

end FluxClusterGen
